import Mathlib

/-!
# Verification of the immutos package-composition pipeline

A shallow embedding of the immutos source (`main.go`, the recipe container
types, and the shipped `.slimify` pattern file) together with proofs of the
specification's claims about the downloader, the source-date epoch, exit
codes, the OCI image configuration, the resolver seed list, the platform
check and the slim pattern semantics.

Machine integers do not overflow on the paths modelled here, so sizes and
timestamps are `Nat`.  Network and filesystem effects are modelled by
explicit oracles (functions passed as parameters), and fallible operations
return `Except`.
-/

namespace Immutos

/-! ## Data model

A selected package as seen by the downloader (`internal/types.Package`,
restricted to the fields `downloadSelectedPackages` reads: `URLs`,
`SHA256`, plus `Package.Name` and `Priority` used by the seed computation
in `main`). -/

structure Package where
  name : String
  priority : String
  urls : List String
  sha256 : String
deriving Repr, DecidableEq

/-! ## Downloader (`downloadPackage`, main.go:613-650)

`downloadPackage` parses the URL, issues a GET (through the caching HTTP
client), creates `scratch/<basename>`, streams the body through the
hash-verifying reader into the file, and finally verifies the SHA-256
digest.  The effects are modelled by a `NetEnv` oracle:

* `parseURL u` is `none` when `url.Parse` fails, otherwise the URL's path;
* `get u` is `.error e` when building or issuing the request fails,
  `.ok (.failed partialData e)` when `io.Copy` fails midway after writing
  `partialData`, and `.ok (.complete data)` when the whole body streams;
* `createOK p` is whether `os.Create p` succeeds.

The SHA-256 digest itself is an explicit parameter `hash`, so theorems
quantify over the digest function. -/

inductive BodyRead where
  | complete (data : List Nat)
  | failed (partialData : List Nat) (msg : String)
deriving Repr, DecidableEq

structure NetEnv where
  parseURL : String → Option String
  get : String → Except String BodyRead
  createOK : String → Bool

/-- `filepath.Base`: the last element of the path (for the slash-free
package filenames at the end of download URLs; Go additionally strips
trailing separators, which never occur here). -/
def baseName (p : String) : String :=
  String.mk ((p.data.reverse.takeWhile (fun c => c != '/')).reverse)

/-- `filepath.Join(dir, base)` for an absolute `dir` and a relative
`base`. -/
def joinPath (dir base : String) : String := dir ++ "/" ++ base

/-- Embedding of `downloadPackage` (main.go:613-650).  Returns the result
(`packageFile.Name()` on success, the wrapped error otherwise) together
with the list of files written to the scratch directory.  Note that on a
copy or verification failure the partially/fully written file is closed
but NOT removed by `downloadPackage` itself. -/
def downloadPackage (hash : List Nat → String) (env : NetEnv)
    (downloadDir pkgURL sha256 : String) :
    Except String String × List (String × List Nat) :=
  match env.parseURL pkgURL with
  | none => (.error "failed to parse package URL", [])
  | some urlPath =>
    match env.get pkgURL with
    | .error e => (.error ("failed to download package: " ++ e), [])
    | .ok bodyRead =>
      let path := joinPath downloadDir (baseName urlPath)
      if env.createOK path then
        match bodyRead with
        | .failed partialData _ =>
            (.error "failed to read package", [(path, partialData)])
        | .complete data =>
            if hash data = sha256 then (.ok path, [(path, data)])
            else (.error "failed to verify package", [(path, data)])
      else (.error "failed to create package file", [])

/-! ## Per-package URL loop (main.go:570-586)

For one package the worker iterates over the (shuffled) URL list; each
failure is `errors.Join`ed into `errs`; the first success resets `errs`
to `nil` and breaks.  `errors.Join` of non-nil errors preserves every
cause, modelled as a list of messages.  The loop is parameterized over
the URL order, covering every shuffle. -/

/-- The message carried by a failed attempt (`""` for a success; only
ever read off failures). -/
def exceptErr : Except String String → String
  | .ok _ => ""
  | .error e => e

def tryURLs (hash : List Nat → String) (env : NetEnv)
    (downloadDir sha256 : String) :
    List String → List String →
    (Except (List String) String) × List (String × List Nat)
  | [], errs => (.error errs, [])
  | u :: rest, errs =>
    match downloadPackage hash env downloadDir u sha256 with
    | (.ok p, files) => (.ok p, files)
    | (.error e, files) =>
      let (res, moreFiles) := tryURLs hash env downloadDir sha256 rest (errs ++ [e])
      (res, files ++ moreFiles)

/-! ## Whole-set download (`downloadSelectedPackages`, main.go:541-611)

Workers run in a bounded pool; the accumulated `packagePaths` list is
sorted at the end (main.go:608), so the pool's completion order is not
observable and the loop is modelled sequentially.  The result is the
sorted path list on success, or the first package-level aggregated error
otherwise; alongside we track every file written into the scratch
directory. -/

def downloadLoop (hash : List Nat → String) (env : NetEnv)
    (downloadDir : String) :
    List Package → Except (List String) (List String) × List (String × List Nat)
  | [] => (.ok [], [])
  | pkg :: rest =>
    match tryURLs hash env downloadDir pkg.sha256 pkg.urls [] with
    | (.error errs, files) => (.error errs, files)
    | (.ok p, files) =>
      let (res, moreFiles) := downloadLoop hash env downloadDir rest
      match res with
      | .error errs => (.error errs, files ++ moreFiles)
      | .ok paths => (.ok (p :: paths), files ++ moreFiles)

def downloadSelectedPackages (hash : List Nat → String) (env : NetEnv)
    (downloadDir : String) (pkgs : List Package) :
    Except (List String) (List String) × List (String × List Nat) :=
  match downloadLoop hash env downloadDir pkgs with
  | (.error errs, files) => (.error errs, files)
  | (.ok paths, files) => (.ok (List.insertionSort (· ≤ ·) paths), files)

/-- A path is absolute when it starts with a separator (the model of Go's
`filepath.IsAbs`). -/
def isAbsolutePath (s : String) : Bool :=
  match s.data with
  | [] => false
  | c :: _ => c == '/'

/-! ## Build-scope scratch lifecycle (main.go:218-225)

The build action creates a fresh temporary directory with
`os.MkdirTemp("", "immutos-*")` and registers `defer os.RemoveAll(tempDir)`,
which runs when the action returns — on success and on every error path
alike.  `os.RemoveAll` deletes every path below the directory. -/

def removeAll (dir : String) (files : List (String × List Nat)) :
    List (String × List Nat) :=
  files.filter (fun f => !(dir ++ "/").data.isPrefixOf f.1.data)

/-- The scratch lifecycle of one build run: run the downloads into the
fresh `tempDir`, then apply the deferred `os.RemoveAll(tempDir)` on scope
exit, whatever the download result was. -/
def buildScratchRun (hash : List Nat → String) (env : NetEnv)
    (tempDir : String) (pkgs : List Package) :
    Except (List String) (List String) × List (String × List Nat) :=
  let (res, files) := downloadSelectedPackages hash env tempDir pkgs
  (res, removeAll tempDir files)

/-! ## SourceDateEpoch (main.go:290-297, 506-522)

`loadPackageDB` keeps `sourceDateEpoch`, updated per component with
`if lastUpdated.After(sourceDateEpoch) { sourceDateEpoch = lastUpdated }`
(main.go:514-516); the build loop in `main` folds the per-platform
epochs into `buildOpts.SourceDateEpoch` with the same `After` comparison
(main.go:295-297).  Timestamps are modelled as `Nat` (seconds since the
epoch; the zero `time.Time` becomes `0`).

The per-component updates run in errgroup goroutines (main.go:506-522)
with NO synchronization: `main.go`'s only mutexes are `componentsMu`
(main.go:418, guarding the `components` append) and `packagePathsMu`
(main.go:563, guarding the `packagePaths` append); the read-compare-write
on `sourceDateEpoch` takes no lock.  Two models are therefore given:
`loadPackageDBEpoch`, the value under sequential (race-free) execution of
the updates — what the spec's "maximum `Release.Date`" demands — and
`runRace`, which executes the goroutines' individual memory accesses
under an arbitrary interleaving and exhibits the lost update the race
permits. -/

def epochStep (acc lastUpdated : Nat) : Nat :=
  if lastUpdated > acc then lastUpdated else acc

/-- The `sourceDateEpoch` over the `lastUpdated` dates of one platform's
components under sequential (race-free) execution of the per-component
updates of main.go:514-516.  The actual updates are unsynchronized; see
`runRace` for the interleaved semantics. -/
def loadPackageDBEpoch (componentDates : List Nat) : Nat :=
  componentDates.foldl epochStep 0

/-- One goroutine's two unsynchronized memory accesses on
`sourceDateEpoch` (main.go:514-516): the read feeding the `After`
comparison, and the conditional store of its `lastUpdated`. -/
inductive RaceAction where
  | read (i : Nat)
  | write (i : Nat)
deriving Repr, DecidableEq

/-- The shared epoch plus each goroutine's private view of it (`none`
until that goroutine has performed its read). -/
structure RaceState where
  epoch : Nat
  locals : List (Option Nat)
deriving Repr, DecidableEq

/-- One memory access of the goroutine body at main.go:514-516:
`read i` records goroutine `i`'s view of the shared epoch (first read
only), `write i` performs its guarded store — comparing its
`lastUpdated` against the possibly stale view it read earlier, exactly
the lost-update window the missing mutex leaves open. -/
def raceStep (dates : List Nat) (s : RaceState) : RaceAction → RaceState
  | .read i =>
    match s.locals[i]? with
    | some none => { s with locals := s.locals.set i (some s.epoch) }
    | _ => s
  | .write i =>
    match s.locals[i]?, dates[i]? with
    | some (some r), some d => if d > r then { s with epoch := d } else s
    | _, _ => s

/-- The final shared `sourceDateEpoch` after the goroutines' accesses
execute in the order given by `schedule`. -/
def runRace (dates : List Nat) (schedule : List RaceAction) : Nat :=
  (schedule.foldl (raceStep dates) ⟨0, dates.map fun _ => none⟩).epoch

/-- The final `buildOpts.SourceDateEpoch` after the platform loop in
`main` (main.go:290-297): fold the per-platform epochs, starting from the
zero time. -/
def computedSourceDateEpoch (platformDates : List (List Nat)) : Nat :=
  platformDates.foldl (fun acc ds => epochStep acc (loadPackageDBEpoch ds)) 0

/-- Modelled from the spec: the handling of the `SOURCE_DATE_EPOCH`
environment variable lives in the build backend
(`internal/buildkit`), which is not part of the sources here.  The spec
states: "`SOURCE_DATE_EPOCH`, if set, overrides the computed epoch." -/
def effectiveSourceDateEpoch (envVar : Option Nat)
    (platformDates : List (List Nat)) : Nat :=
  match envVar with
  | some e => e
  | none => computedSourceDateEpoch platformDates

/-! ## Exit codes (main.go:411-415)

`main` runs the CLI application and exits `1` when `app.Run` returns any
error, falling off `main` (exit `0`) otherwise.  The CLI library
(urfave/cli v2) reports invalid command-line arguments by *returning* an
error from `Run` after printing usage; it only terminates the process
itself for errors implementing `ExitCoder`, which this program never
constructs.  So every run outcome funnels through main.go:411-415. -/

inductive RunOutcome where
  | success
  | invalidArgs (msg : String)
  | fatal (msg : String)
deriving Repr, DecidableEq

/-- The error value `app.Run` returns to `main` for a given outcome:
usage errors and fatal errors alike come back as a non-nil error. -/
def cliRunResult : RunOutcome → Option String
  | .success => none
  | .invalidArgs msg => some msg
  | .fatal msg => some msg

/-- main.go:411-415: `os.Exit(1)` on any error from `app.Run`, implicit
exit `0` otherwise. -/
def mainExit (runErr : Option String) : Nat :=
  match runErr with
  | some _ => 1
  | none => 0

/-- The process exit code for a run outcome. -/
def processExitCode (o : RunOutcome) : Nat := mainExit (cliRunResult o)

/-! ## OCI image configuration (`toOCIImageConfig`, main.go:652-668) -/

/-- Modelled from the spec: the recipe's `container` section
(`internal/recipe/v1alpha1` is not among the sources here).  Per §6 it
carries `user, env, cmd, entrypoint, workingDir, labels, exposedPorts,
volumes, stopSignal`.  Go's `map[string]struct{}` sets become lists of
keys and `map[string]string` becomes an association list. -/
structure ContainerConfig where
  user : String
  exposedPorts : List String
  env : List String
  entrypoint : List String
  cmd : List String
  volumes : List String
  workingDir : String
  labels : List (String × String)
  stopSignal : String
deriving Repr, DecidableEq

/-- The fields of the recipe the build action reads (sources, packages
and options are kept abstract where a claim does not inspect them). -/
structure Recipe where
  container : Option ContainerConfig
  includePackages : List String
  excludePackages : List String
  omitRequired : Bool
  downloadOnly : Bool
deriving Repr, DecidableEq

/-- `ocispecs.ImageConfig`, restricted to the fields `toOCIImageConfig`
sets.  The Go zero value has every field empty. -/
structure ImageConfig where
  user : String := ""
  exposedPorts : List String := []
  env : List String := []
  entrypoint : List String := []
  cmd : List String := []
  volumes : List String := []
  workingDir : String := ""
  labels : List (String × String) := []
  stopSignal : String := ""
deriving Repr, DecidableEq

/-- The zero-valued `ocispecs.ImageConfig{}`. -/
def emptyImageConfig : ImageConfig := {}

/-- Embedding of `toOCIImageConfig` (main.go:652-668). -/
def toOCIImageConfig (rx : Recipe) : ImageConfig :=
  match rx.container with
  | none => {}
  | some c =>
    { user := c.user
      exposedPorts := c.exposedPorts
      env := c.env
      entrypoint := c.entrypoint
      cmd := c.cmd
      volumes := c.volumes
      workingDir := c.workingDir
      labels := c.labels
      stopSignal := c.stopSignal }

/-! ## Resolver seed list (main.go:299-321)

Per platform the build action assembles `requiredNameVersions`: first,
unless `--dev` is set, the literal `"immutos"`; then, unless
`options.omitRequired`, the name of every package of priority
`required` in the platform's package database.  The seeds handed to
`resolve.Resolve` are `requiredNameVersions ++ recipe.packages.include`. -/

def requiredNameVersions (dev : Bool) (rx : Recipe) (db : List Package) :
    List String :=
  (if dev then [] else ["immutos"]) ++
    (if rx.omitRequired then []
     else (db.filter (fun pkg => pkg.priority = "required")).map Package.name)

def resolveSeeds (dev : Bool) (rx : Recipe) (db : List Package) :
    List String :=
  requiredNameVersions dev rx db ++ rx.includePackages

/-! ## Platform loop (main.go:275-351)

`main` splits `--platform` on commas and, for each entry, first parses it
(`platforms.Parse`) and rejects any platform whose OS is not `"linux"`;
only after both checks does it fetch sources (`loadPackageDB`), resolve,
download, and unpack for that platform.  The parser and the per-platform
work are oracles; the trace records which phases ran for which platform
string. -/

structure Platform where
  os : String
  architecture : String
deriving Repr, DecidableEq

inductive Phase where
  | fetchSources
  | resolvePackages
  | downloadPackages
  | unpackPackages
deriving Repr, DecidableEq

/-- The phases executed for one platform that passed the checks
(main.go:285-350). -/
def platformPhases : List Phase :=
  [.fetchSources, .resolvePackages, .downloadPackages, .unpackPackages]

/-- Embedding of the build action's platform loop: `parse` models
`platforms.Parse`, `work` the per-platform pipeline body.  Returns the
loop's result and the trace of `(platform string, executed phases)`. -/
def buildPlatformLoop (parse : String → Option Platform)
    (work : Platform → Except String Unit) :
    List String → Except String Unit × List (String × List Phase)
  | [] => (.ok (), [])
  | s :: rest =>
    match parse s with
    | none => (.error "failed to parse platform", [])
    | some p =>
      if p.os ≠ "linux" then (.error ("unsupported OS: " ++ p.os), [])
      else
        match work p with
        | .error e => (.error e, [(s, platformPhases)])
        | .ok () =>
          let (res, trace) := buildPlatformLoop parse work rest
          (res, (s, platformPhases) :: trace)

/-! ## Slim pattern semantics (`.slimify`, §6 of the spec)

Only the pattern file `internal/secondstage/slimify/.slimify` is among
the sources; the matcher that consumes it is modelled from the spec:
"a set of glob patterns, one per line; lines beginning with `!` are
preserve-patterns that override deletes.  Empty lines and `#` comments
are ignored.  A path is removed iff it matches at least one delete
pattern and no preserve pattern."  The file's own header points at
debuerreotype / dpkg `path-exclude` semantics, whose `fnmatch` is used
without `FNM_PATHNAME`, so `*` matches any character sequence including
`/`. -/

/-- All suffixes of a character list, longest first, down to `[]`. -/
def suffixes : List Char → List (List Char)
  | [] => [[]]
  | c :: cs => (c :: cs) :: suffixes cs

/-- Glob matching over character lists: `*` matches any (possibly empty)
sequence of characters; every other pattern character matches itself. -/
def globChars : List Char → List Char → Bool
  | [], s => s.isEmpty
  | '*' :: ps, s => (suffixes s).any (fun t => globChars ps t)
  | _ :: _, [] => false
  | p :: ps, c :: s => p == c && globChars ps s

/-- Modelled from the spec: whether glob `pattern` matches `path`. -/
def globMatch (pattern path : String) : Bool :=
  globChars pattern.data path.data

/-- Modelled from the spec: parse the slim pattern file into
`(delete patterns, preserve patterns)`, skipping empty lines and `#`
comments and stripping the `!` prefix of preserve lines. -/
def parseSlimPatterns (fileLines : List String) : List String × List String :=
  match fileLines with
  | [] => ([], [])
  | l :: rest =>
    let (dels, pres) := parseSlimPatterns rest
    match l.data with
    | [] => (dels, pres)
    | '#' :: _ => (dels, pres)
    | '!' :: cs => (dels, String.mk cs :: pres)
    | _ => (l :: dels, pres)

/-- Modelled from the spec: a path is removed iff it matches at least
one delete pattern and no preserve pattern. -/
def slimRemoves (fileLines : List String) (path : String) : Bool :=
  (parseSlimPatterns fileLines).1.any (fun pat => globMatch pat path) &&
    !(parseSlimPatterns fileLines).2.any (fun pat => globMatch pat path)

/-- The pattern section of the shipped
`internal/secondstage/slimify/.slimify` file (lines 39-68), verbatim
minus the license header. -/
def slimifyLines : List String :=
  [ "# This file contains the list of files/directories which will be removed for \"slim\" image variants.",
    "# https://github.com/tianon/docker-brew-debian/issues/48",
    "",
    "# https://wiki.ubuntu.com/ReducingDiskFootprint#Drop_unnecessary_files",
    "/usr/share/doc/*",
    "/usr/share/info/*",
    "/usr/share/linda/*",
    "/usr/share/lintian/overrides/*",
    "/usr/share/locale/*",
    "/usr/share/man/*",
    "",
    "# https://salsa.debian.org/elmig-guest/localepurge/-/blob/176446028ca719d65993eb01e39d7040fbbcf12d/usr/share/localepurge/gen-dpkg-cfg.pl#L9-20",
    "/usr/share/doc/kde/HTML/*/*",
    "/usr/share/gnome/help/*/*",
    "/usr/share/locale/*",
    "/usr/share/omf/*/*-*.emf",
    "",
    "# Files/directories that will not be removed:",
    "",
    "# https://wiki.ubuntu.com/ReducingDiskFootprint#Drop_unnecessary_files",
    "!/usr/share/doc/*/copyright",
    "",
    "# https://salsa.debian.org/elmig-guest/localepurge/-/blob/176446028ca719d65993eb01e39d7040fbbcf12d/usr/share/localepurge/gen-dpkg-cfg.pl#L22-47",
    "!/usr/share/doc/kde/HTML/C/*",
    "!/usr/share/gnome/help/*/C/*",
    "!/usr/share/locale/all_languages",
    "!/usr/share/locale/currency/*",
    "!/usr/share/locale/l10n/*",
    "!/usr/share/locale/languages",
    "!/usr/share/locale/locale.alias",
    "!/usr/share/omf/*/*-C.emf" ]

/-! ## Concrete fixtures used by the witness theorems -/

/-- A digest function for concrete runs: body `[7]` digests to `"good"`. -/
def hash0 : List Nat → String := fun data => if data = [7] then "good" else "bad"

/-- A network in which exactly `http://mirror/a.deb` serves the body
`[7]` and every other URL fails at the GET. -/
def env0 : NetEnv :=
  { parseURL := fun u => some u
    get := fun u =>
      if u = "http://mirror/a.deb" then .ok (.complete [7])
      else .error "connection refused"
    createOK := fun _ => true }

/-- A network in which `http://mirror/a.deb` serves a body whose digest
does not match `pkg0`'s SHA256. -/
def envBad : NetEnv :=
  { parseURL := fun u => some u
    get := fun _ => .ok (.complete [9])
    createOK := fun _ => true }

def pkg0 : Package :=
  { name := "base-files", priority := "required",
    urls := ["http://mirror/a.deb"], sha256 := "good" }

def container0 : ContainerConfig :=
  { user := "www", exposedPorts := ["80/tcp"], env := ["A=1"],
    entrypoint := ["/bin/sh"], cmd := ["-c"], volumes := ["/data"],
    workingDir := "/srv", labels := [("k", "v")], stopSignal := "SIGTERM" }

def recipeNone : Recipe :=
  { container := none, includePackages := [], excludePackages := [],
    omitRequired := false, downloadOnly := false }

def recipe0 : Recipe :=
  { container := some container0, includePackages := [], excludePackages := [],
    omitRequired := false, downloadOnly := false }

end Immutos

namespace Immutos

/-! # Helper lemmas -/

/-- A list is a Boolean prefix of itself followed by anything. -/
theorem isPrefixOf_append_self (l1 l2 : List Char) :
    l1.isPrefixOf (l1 ++ l2) = true := by
  induction l1 with
  | nil => simp [List.isPrefixOf]
  | cons a as ih => simp [List.isPrefixOf, ih]

theorem epochStep_eq_max (a b : Nat) : epochStep a b = max a b := by
  unfold epochStep; split <;> omega

theorem epochStep_funext : epochStep = fun a b => max a b := by
  funext a b; exact epochStep_eq_max a b

theorem foldl_max_le (l : List Nat) :
    ∀ i : Nat, i ≤ l.foldl max i ∧ ∀ d ∈ l, d ≤ l.foldl max i := by
  induction l with
  | nil => intro i; exact ⟨le_refl i, by simp⟩
  | cons a t ih =>
    intro i
    have h := ih (max i a)
    refine ⟨le_trans (le_max_left i a) h.1, ?_⟩
    intro d hd
    rcases List.mem_cons.mp hd with rfl | hdt
    · exact le_trans (le_max_right i d) h.1
    · exact h.2 d hdt

theorem foldl_max_mem (l : List Nat) :
    ∀ i : Nat, l.foldl max i = i ∨ l.foldl max i ∈ l := by
  induction l with
  | nil => intro i; left; rfl
  | cons a t ih =>
    intro i
    rw [List.foldl_cons]
    rcases ih (max i a) with h | h
    · rcases max_choice i a with hc | hc
      · left; rw [h, hc]
      · right; rw [h, hc]; exact List.mem_cons_self a t
    · right; exact List.mem_cons_of_mem a h

theorem loadPackageDBEpoch_eq (ds : List Nat) :
    loadPackageDBEpoch ds = ds.foldl max 0 := by
  unfold loadPackageDBEpoch; rw [epochStep_funext]

theorem computedSourceDateEpoch_eq (pds : List (List Nat)) :
    computedSourceDateEpoch pds =
      (pds.map loadPackageDBEpoch).foldl max 0 := by
  unfold computedSourceDateEpoch
  rw [List.foldl_map]
  simp only [epochStep_eq_max]

theorem downloadPackage_ok (hash : List Nat → String) (env : NetEnv)
    (dir u sha p : String) (files : List (String × List Nat))
    (h : downloadPackage hash env dir u sha = (.ok p, files)) :
    ∃ urlPath data,
      env.parseURL u = some urlPath ∧
      env.get u = .ok (.complete data) ∧
      hash data = sha ∧
      p = joinPath dir (baseName urlPath) ∧
      files = [(p, data)] := by
  simp only [downloadPackage] at h
  split at h
  · simp at h
  next urlPath hp =>
    split at h
    · simp at h
    next br hg =>
      split at h
      · split at h
        · simp at h
        next data =>
          split at h
          next hhash =>
            simp only [Prod.mk.injEq, Except.ok.injEq] at h
            exact ⟨urlPath, data, hp, hg, hhash, h.1.symm, by rw [← h.1]; exact h.2.symm⟩
          · simp at h
      · simp at h

/-- Every file `downloadPackage` writes is under the scratch directory. -/
theorem downloadPackage_files_under_dir (hash : List Nat → String) (env : NetEnv)
    (dir u sha : String) :
    ∀ pf ∈ (downloadPackage hash env dir u sha).2,
      (dir ++ "/").data.isPrefixOf pf.1.data = true := by
  intro pf hpf
  simp only [downloadPackage] at hpf
  split at hpf
  · simp at hpf
  next urlPath hp =>
    split at hpf
    · simp at hpf
    next br hg =>
      split at hpf
      · have hpath : ∀ data, pf ∈ [(joinPath dir (baseName urlPath), data)] →
            (dir ++ "/").data.isPrefixOf pf.1.data = true := by
          intro data hmem
          rcases List.mem_singleton.mp hmem with rfl
          show (dir ++ "/").data.isPrefixOf (joinPath dir (baseName urlPath)).data = true
          unfold joinPath
          rw [String.data_append]
          exact isPrefixOf_append_self _ _
        split at hpf
        next partialData msg => exact hpath partialData hpf
        next data =>
          split at hpf
          · exact hpath data hpf
          · exact hpath data hpf
      · simp at hpf

/-- A join below an absolute directory is absolute. -/
theorem joinPath_absolute (dir base : String) (h : isAbsolutePath dir = true) :
    isAbsolutePath (joinPath dir base) = true := by
  unfold isAbsolutePath at h ⊢
  unfold joinPath
  rw [String.data_append, String.data_append]
  cases hd : dir.data with
  | nil => rw [hd] at h; simp at h
  | cons c t =>
    rw [hd] at h
    simpa using h

/-- When every URL fails, the URL loop returns the join of all the
underlying errors, in attempt order, appended to the accumulator. -/
theorem tryURLs_all_fail (hash : List Nat → String) (env : NetEnv)
    (dir sha : String) :
    ∀ (urls errs : List String),
      (∀ u ∈ urls, ∃ e, (downloadPackage hash env dir u sha).1 = .error e) →
      (tryURLs hash env dir sha urls errs).1 =
        .error (errs ++ urls.map fun u =>
          exceptErr (downloadPackage hash env dir u sha).1) := by
  intro urls
  induction urls with
  | nil => intro errs _; simp [tryURLs]
  | cons u rest ih =>
    intro errs hall
    rcases hall u (List.mem_cons_self u rest) with ⟨e, he⟩
    rcases hdp : downloadPackage hash env dir u sha with ⟨res, files⟩
    rw [hdp] at he
    simp only at he
    subst he
    have hrest := ih (errs ++ [e]) (fun v hv => hall v (List.mem_cons_of_mem u hv))
    rcases htr : tryURLs hash env dir sha rest (errs ++ [e]) with ⟨res', more⟩
    rw [htr] at hrest
    simp only at hrest
    simp only [tryURLs, hdp, htr]
    rw [hrest]
    simp only [List.map_cons, hdp, exceptErr]
    simp [List.append_assoc]

/-- If the URL loop fails, every URL's attempt failed. -/
theorem tryURLs_error_all_fail (hash : List Nat → String) (env : NetEnv)
    (dir sha : String) :
    ∀ (urls errs es : List String),
      (tryURLs hash env dir sha urls errs).1 = .error es →
      ∀ u ∈ urls, ∃ e, (downloadPackage hash env dir u sha).1 = .error e := by
  intro urls
  induction urls with
  | nil => intro errs es _ u hu; cases hu
  | cons u0 rest ih =>
    intro errs es herr u hu
    rcases hdp : downloadPackage hash env dir u0 sha with ⟨res, files⟩
    cases res with
    | ok p =>
      rw [show tryURLs hash env dir sha (u0 :: rest) errs = (.ok p, files) by
            simp [tryURLs, hdp]] at herr
      simp at herr
    | error e =>
      rcases List.mem_cons.mp hu with rfl | hurest
      · exact ⟨e, by rw [hdp]⟩
      · rcases htr : tryURLs hash env dir sha rest (errs ++ [e]) with ⟨res', more⟩
        have hres' : res' = .error es := by
          rw [show tryURLs hash env dir sha (u0 :: rest) errs = (res', files ++ more) by
                simp [tryURLs, hdp, htr]] at herr
          simpa using herr
        exact ih (errs ++ [e]) es (by rw [htr, hres']) u hurest

/-- A successful URL after any run of failed ones makes the loop
succeed, discarding the earlier errors. -/
theorem tryURLs_success_discards (hash : List Nat → String) (env : NetEnv)
    (dir sha : String) :
    ∀ (pre : List String) (u : String) (post errs : List String) (p : String),
      (∀ v ∈ pre, ∃ e, (downloadPackage hash env dir v sha).1 = .error e) →
      (downloadPackage hash env dir u sha).1 = .ok p →
      (tryURLs hash env dir sha (pre ++ u :: post) errs).1 = .ok p := by
  intro pre
  induction pre with
  | nil =>
    intro u post errs p _ hok
    rcases hdp : downloadPackage hash env dir u sha with ⟨res, files⟩
    rw [hdp] at hok
    simp only at hok
    subst hok
    simp [tryURLs, hdp]
  | cons v vs ih =>
    intro u post errs p hpre hok
    rcases hpre v (List.mem_cons_self v vs) with ⟨e, he⟩
    rcases hdp : downloadPackage hash env dir v sha with ⟨res, files⟩
    rw [hdp] at he
    simp only at he
    subst he
    have hrest := ih u post (errs ++ [e]) p
      (fun w hw => hpre w (List.mem_cons_of_mem v hw)) hok
    rcases htr : tryURLs hash env dir sha (vs ++ u :: post) (errs ++ [e]) with ⟨res', more⟩
    rw [htr] at hrest
    simp only at hrest
    subst hrest
    simp [tryURLs, hdp, htr]

/-- A successful URL loop returns the path of some URL's successful
download. -/
theorem tryURLs_ok (hash : List Nat → String) (env : NetEnv)
    (dir sha : String) :
    ∀ (urls errs : List String) (p : String),
      (tryURLs hash env dir sha urls errs).1 = .ok p →
      ∃ u ∈ urls, (downloadPackage hash env dir u sha).1 = .ok p := by
  intro urls
  induction urls with
  | nil => intro errs p h; simp [tryURLs] at h
  | cons u0 rest ih =>
    intro errs p h
    rcases hdp : downloadPackage hash env dir u0 sha with ⟨res, files⟩
    cases res with
    | ok q =>
      rw [show tryURLs hash env dir sha (u0 :: rest) errs = (.ok q, files) by
            simp [tryURLs, hdp]] at h
      have hq : q = p := by simpa using h
      subst hq
      exact ⟨u0, List.mem_cons_self u0 rest, by rw [hdp]⟩
    | error e =>
      rcases htr : tryURLs hash env dir sha rest (errs ++ [e]) with ⟨res', more⟩
      rw [show tryURLs hash env dir sha (u0 :: rest) errs = (res', files ++ more) by
            simp [tryURLs, hdp, htr]] at h
      simp only at h
      rcases ih (errs ++ [e]) p (by rw [htr, h]) with ⟨u, hu, hdpu⟩
      exact ⟨u, List.mem_cons_of_mem u0 hu, hdpu⟩

/-- Every file the URL loop writes is under the scratch directory. -/
theorem tryURLs_files_under_dir (hash : List Nat → String) (env : NetEnv)
    (dir sha : String) :
    ∀ (urls errs : List String),
      ∀ pf ∈ (tryURLs hash env dir sha urls errs).2,
        (dir ++ "/").data.isPrefixOf pf.1.data = true := by
  intro urls
  induction urls with
  | nil => intro errs pf h; simp [tryURLs] at h
  | cons u0 rest ih =>
    intro errs pf h
    rcases hdp : downloadPackage hash env dir u0 sha with ⟨res, files⟩
    have hfiles : ∀ qf ∈ files, (dir ++ "/").data.isPrefixOf qf.1.data = true := by
      intro qf hqf
      exact downloadPackage_files_under_dir hash env dir u0 sha qf (by rw [hdp]; exact hqf)
    cases res with
    | ok q =>
      rw [show tryURLs hash env dir sha (u0 :: rest) errs = (.ok q, files) by
            simp [tryURLs, hdp]] at h
      exact hfiles pf h
    | error e =>
      rcases htr : tryURLs hash env dir sha rest (errs ++ [e]) with ⟨res', more⟩
      rw [show tryURLs hash env dir sha (u0 :: rest) errs = (res', files ++ more) by
            simp [tryURLs, hdp, htr]] at h
      rcases List.mem_append.mp h with hf | hm
      · exact hfiles pf hf
      · exact ih (errs ++ [e]) pf (by rw [htr]; exact hm)

/-- Every path a successful download loop returns came from a
successful `downloadPackage` of one of the selected packages' URLs. -/
theorem downloadLoop_ok (hash : List Nat → String) (env : NetEnv) (dir : String) :
    ∀ (pkgs : List Package) (paths : List String),
      (downloadLoop hash env dir pkgs).1 = .ok paths →
      ∀ p ∈ paths, ∃ pkg ∈ pkgs, ∃ u ∈ pkg.urls,
        (downloadPackage hash env dir u pkg.sha256).1 = .ok p := by
  intro pkgs
  induction pkgs with
  | nil =>
    intro paths h p hp
    simp only [downloadLoop] at h
    have : paths = [] := by simpa using h.symm
    subst this
    cases hp
  | cons pkg rest ih =>
    intro paths h p hp
    rcases htry : tryURLs hash env dir pkg.sha256 pkg.urls [] with ⟨tres, tfiles⟩
    cases tres with
    | error errs =>
      rw [show downloadLoop hash env dir (pkg :: rest) = (.error errs, tfiles) by
            simp [downloadLoop, htry]] at h
      simp at h
    | ok p0 =>
      rcases hdl : downloadLoop hash env dir rest with ⟨res, files⟩
      cases res with
      | error errs =>
        rw [show downloadLoop hash env dir (pkg :: rest) = (.error errs, tfiles ++ files) by
              simp [downloadLoop, htry, hdl]] at h
        simp at h
      | ok paths0 =>
        rw [show downloadLoop hash env dir (pkg :: rest) = (.ok (p0 :: paths0), tfiles ++ files) by
              simp [downloadLoop, htry, hdl]] at h
        have hpaths : paths = p0 :: paths0 := by simpa using h.symm
        subst hpaths
        rcases List.mem_cons.mp hp with rfl | hp0
        · rcases tryURLs_ok hash env dir pkg.sha256 pkg.urls [] p (by rw [htry]) with
            ⟨u, hu, hdpu⟩
          exact ⟨pkg, List.mem_cons_self pkg rest, u, hu, hdpu⟩
        · rcases ih paths0 (by rw [hdl]) p hp0 with ⟨pkg', hpkg', u, hu, hdpu⟩
          exact ⟨pkg', List.mem_cons_of_mem pkg hpkg', u, hu, hdpu⟩

/-- Every file the download loop writes is under the scratch
directory. -/
theorem downloadLoop_files_under_dir (hash : List Nat → String) (env : NetEnv)
    (dir : String) :
    ∀ (pkgs : List Package),
      ∀ pf ∈ (downloadLoop hash env dir pkgs).2,
        (dir ++ "/").data.isPrefixOf pf.1.data = true := by
  intro pkgs
  induction pkgs with
  | nil => intro pf h; simp [downloadLoop] at h
  | cons pkg rest ih =>
    intro pf h
    rcases htry : tryURLs hash env dir pkg.sha256 pkg.urls [] with ⟨tres, tfiles⟩
    have htf : ∀ qf ∈ tfiles, (dir ++ "/").data.isPrefixOf qf.1.data = true := by
      intro qf hqf
      exact tryURLs_files_under_dir hash env dir pkg.sha256 pkg.urls [] qf
        (by rw [htry]; exact hqf)
    cases tres with
    | error errs =>
      rw [show downloadLoop hash env dir (pkg :: rest) = (.error errs, tfiles) by
            simp [downloadLoop, htry]] at h
      exact htf pf h
    | ok p0 =>
      rcases hdl : downloadLoop hash env dir rest with ⟨res, files⟩
      have hall : pf ∈ tfiles ++ files →
          (dir ++ "/").data.isPrefixOf pf.1.data = true := by
        intro hm
        rcases List.mem_append.mp hm with hf | hf
        · exact htf pf hf
        · exact ih pf (by rw [hdl]; exact hf)
      cases res with
      | error errs =>
        rw [show downloadLoop hash env dir (pkg :: rest) = (.error errs, tfiles ++ files) by
              simp [downloadLoop, htry, hdl]] at h
        exact hall h
      | ok paths0 =>
        rw [show downloadLoop hash env dir (pkg :: rest) = (.ok (p0 :: paths0), tfiles ++ files) by
              simp [downloadLoop, htry, hdl]] at h
        exact hall h

/-- The sorted result list of `downloadSelectedPackages` holds the same
paths as the raw loop result. -/
theorem downloadSelectedPackages_ok (hash : List Nat → String) (env : NetEnv)
    (dir : String) (pkgs : List Package) (paths : List String)
    (h : (downloadSelectedPackages hash env dir pkgs).1 = .ok paths) :
    ∃ paths0, (downloadLoop hash env dir pkgs).1 = .ok paths0 ∧
      paths = List.insertionSort (· ≤ ·) paths0 := by
  unfold downloadSelectedPackages at h
  rcases hdl : downloadLoop hash env dir pkgs with ⟨res, files⟩
  rw [hdl] at h
  cases res with
  | error errs => simp at h
  | ok paths0 =>
    refine ⟨paths0, rfl, ?_⟩
    simpa using h.symm

/-- Under sequential (race-free) execution of the per-component updates,
the computed epoch is the maximum `lastUpdated` over all components of
all platforms, and a set `SOURCE_DATE_EPOCH` environment variable
overrides it — the property the claim and the spec demand, proved here
of the sequential model only; the actual unsynchronized execution can
fall short of it (see `source_date_epoch_lost_update_race`). -/
theorem sequential_epoch_is_max_with_env_override (pds : List (List Nat)) :
    (∀ d ∈ pds.flatten, d ≤ computedSourceDateEpoch pds) ∧
    (computedSourceDateEpoch pds ∈ pds.flatten ∨ computedSourceDateEpoch pds = 0) ∧
    effectiveSourceDateEpoch none pds = computedSourceDateEpoch pds ∧
    (∀ e, effectiveSourceDateEpoch (some e) pds = e) := by
  refine ⟨?_, ?_, rfl, fun e => rfl⟩
  · intro d hd
    rcases List.mem_flatten.mp hd with ⟨ds, hds, hdds⟩
    have h1 : d ≤ loadPackageDBEpoch ds := by
      rw [loadPackageDBEpoch_eq]; exact (foldl_max_le ds 0).2 d hdds
    have h2 : loadPackageDBEpoch ds ≤ computedSourceDateEpoch pds := by
      rw [computedSourceDateEpoch_eq]
      exact (foldl_max_le (pds.map loadPackageDBEpoch) 0).2 _
        (List.mem_map_of_mem loadPackageDBEpoch hds)
    exact le_trans h1 h2
  · rw [computedSourceDateEpoch_eq]
    rcases foldl_max_mem (pds.map loadPackageDBEpoch) 0 with h | h
    · right; exact h
    · rcases List.mem_map.mp h with ⟨ds, hds, hfd⟩
      rw [← hfd, loadPackageDBEpoch_eq]
      rcases foldl_max_mem ds 0 with h0 | h0
      · right; rw [h0]
      · left; exact List.mem_flatten.mpr ⟨ds, hds, h0⟩

/-- A goroutine's access never invents a timestamp: the shared epoch is
always the zero time or one of the components' dates. -/
theorem raceStep_epoch_cases (dates : List Nat) (s : RaceState) (a : RaceAction)
    (h : s.epoch = 0 ∨ s.epoch ∈ dates) :
    (raceStep dates s a).epoch = 0 ∨ (raceStep dates s a).epoch ∈ dates := by
  cases a with
  | read i =>
    simp only [raceStep]
    split <;> exact h
  | write i =>
    simp only [raceStep]
    split
    next r d hl hd =>
      split
      · right; exact List.getElem?_mem hd
      · exact h
    next => exact h

/-- Every interleaving of the unsynchronized updates ends with the zero
time or some component's date: the race can only lose updates, never
fabricate an epoch. -/
theorem runRace_sound (dates : List Nat) (schedule : List RaceAction) :
    runRace dates schedule = 0 ∨ runRace dates schedule ∈ dates := by
  unfold runRace
  suffices h : ∀ (acts : List RaceAction) (s : RaceState),
      (s.epoch = 0 ∨ s.epoch ∈ dates) →
      ((acts.foldl (raceStep dates) s).epoch = 0 ∨
       (acts.foldl (raceStep dates) s).epoch ∈ dates) by
    exact h schedule ⟨0, dates.map fun _ => none⟩ (Or.inl rfl)
  intro acts
  induction acts with
  | nil => intro s hs; exact hs
  | cons a rest ih =>
    intro s hs
    exact ih (raceStep dates s a) (raceStep_epoch_cases dates s a hs)

/-- C3: the claim fails on the code.  The read-compare-write of
`sourceDateEpoch` at main.go:514-516 runs in errgroup goroutines with no
mutex (unlike the `componentsMu`- and `packagePathsMu`-guarded appends in
the same file), so it permits a lost update: with two components whose
Release dates are 7 and 3, the interleaving in which both goroutines
read the zero epoch before either writes ends with epoch 3, while the
claimed maximum — the value both sequential executions and the
race-free model yield — is 7. -/
theorem source_date_epoch_lost_update_race :
    runRace [7, 3] [.read 0, .read 1, .write 0, .write 1] = 3 ∧
    runRace [7, 3] [.read 0, .write 0, .read 1, .write 1] = 7 ∧
    runRace [7, 3] [.read 1, .write 1, .read 0, .write 0] = 7 ∧
    loadPackageDBEpoch [7, 3] = 7 ∧
    runRace [7, 3] [.read 0, .read 1, .write 0, .write 1] ≠
      loadPackageDBEpoch [7, 3] := by
  decide

/-- C5 counterexample: the claim says invalid command-line arguments
exit with code `2`, but main.go:411-415 exits `1` on every error
`app.Run` returns — including CLI usage errors, which urfave/cli v2
reports as ordinary returned errors. -/
theorem exit_code_two_counterexample :
    processExitCode (.invalidArgs "flag provided but not defined: -bogus") ≠ 2 ∧
    processExitCode (.invalidArgs "flag provided but not defined: -bogus") = 1 := by
  decide

/-- C5 (amended): the process exits `0` on success and `1` on any error,
including invalid command-line arguments. -/
theorem exit_codes_amended (o : RunOutcome) :
    (o = .success → processExitCode o = 0) ∧
    (o ≠ .success → processExitCode o = 1) := by
  cases o <;> simp [processExitCode, cliRunResult, mainExit]

/-- Witness for the amended C5 at concrete outcomes. -/
theorem exit_codes_amended_witness :
    processExitCode .success = 0 ∧
    processExitCode (.fatal "failed to build OCI image") = 1 :=
  ⟨(exit_codes_amended .success).1 rfl,
   (exit_codes_amended (.fatal "failed to build OCI image")).2 (by decide)⟩

/-- C8: the OCI image configuration equals exactly the recipe's
container fields, and is the zero-valued configuration when the recipe
has no container section (main.go:652-668). -/
theorem oci_image_config_matches_recipe (rx : Recipe) :
    (rx.container = none → toOCIImageConfig rx = emptyImageConfig) ∧
    (∀ c, rx.container = some c →
      toOCIImageConfig rx =
        { user := c.user, exposedPorts := c.exposedPorts, env := c.env,
          entrypoint := c.entrypoint, cmd := c.cmd, volumes := c.volumes,
          workingDir := c.workingDir, labels := c.labels,
          stopSignal := c.stopSignal }) := by
  constructor
  · intro h; simp [toOCIImageConfig, h, emptyImageConfig]
  · intro c h; simp [toOCIImageConfig, h]

/-- Witness for C8 at a concrete recipe with and without a container
section. -/
theorem oci_image_config_witness :
    toOCIImageConfig recipeNone = emptyImageConfig ∧
    toOCIImageConfig recipe0 =
      { user := container0.user, exposedPorts := container0.exposedPorts,
        env := container0.env, entrypoint := container0.entrypoint,
        cmd := container0.cmd, volumes := container0.volumes,
        workingDir := container0.workingDir, labels := container0.labels,
        stopSignal := container0.stopSignal } :=
  ⟨(oci_image_config_matches_recipe recipeNone).1 rfl,
   (oci_image_config_matches_recipe recipe0).2 container0 rfl⟩

/-- C9: unless `--dev` is set, `"immutos"` is appended to the resolver
seed list (main.go:299-304), so the non-dev seed list always contains
`"immutos"`; with `--dev` it is not appended, leaving exactly the
priority-required names and the recipe includes. -/
theorem immutos_seeded_unless_dev (rx : Recipe) (db : List Package) :
    "immutos" ∈ resolveSeeds false rx db ∧
    resolveSeeds false rx db = "immutos" :: resolveSeeds true rx db ∧
    resolveSeeds true rx db =
      (if rx.omitRequired then []
       else (db.filter (fun pkg => pkg.priority = "required")).map Package.name) ++
        rx.includePackages := by
  refine ⟨?_, ?_, ?_⟩ <;>
    simp [resolveSeeds, requiredNameVersions]

/-- C10: a platform string that fails to parse, or parses to an OS other
than `"linux"`, makes the build loop return an error, and no
fetch/resolve/download/unpack phase is ever recorded for it
(main.go:275-283 precede the per-platform work at main.go:285-350). -/
theorem nonlinux_platform_rejected_before_work
    (parse : String → Option Platform) (work : Platform → Except String Unit)
    (strs : List String) (s : String) (hs : s ∈ strs)
    (hbad : parse s = none ∨ ∃ p, parse s = some p ∧ p.os ≠ "linux") :
    (∃ e, (buildPlatformLoop parse work strs).1 = .error e) ∧
    ∀ phases, (s, phases) ∉ (buildPlatformLoop parse work strs).2 := by
  induction strs with
  | nil => cases hs
  | cons s' rest ih =>
    by_cases hss : s' = s
    · subst hss
      rcases hbad with hnone | ⟨p, hp, hos⟩
      · simp only [buildPlatformLoop, hnone]
        exact ⟨⟨"failed to parse platform", rfl⟩, by simp⟩
      · simp only [buildPlatformLoop, hp, if_pos hos]
        exact ⟨⟨"unsupported OS: " ++ p.os, rfl⟩, by simp⟩
    · have hsrest : s ∈ rest := by
        rcases List.mem_cons.mp hs with h | h
        · exact absurd h.symm hss
        · exact h
      have ihr := ih hsrest
      cases hp' : parse s' with
      | none =>
        simp only [buildPlatformLoop, hp']
        exact ⟨⟨"failed to parse platform", rfl⟩, by simp⟩
      | some p' =>
        by_cases hos' : p'.os ≠ "linux"
        · simp only [buildPlatformLoop, hp', if_pos hos']
          exact ⟨⟨"unsupported OS: " ++ p'.os, rfl⟩, by simp⟩
        · cases hw : work p' with
          | error e =>
            simp only [buildPlatformLoop, hp', if_neg hos', hw]
            refine ⟨⟨e, rfl⟩, ?_⟩
            intro phases hmem
            rcases List.mem_singleton.mp hmem with h
            exact hss (congrArg Prod.fst h).symm
          | ok u =>
            cases u
            rcases hbl : buildPlatformLoop parse work rest with ⟨res, trace⟩
            rw [hbl] at ihr
            simp only [buildPlatformLoop, hp', if_neg hos', hw, hbl]
            refine ⟨?_, ?_⟩
            · rcases ihr.1 with ⟨e, he⟩
              exact ⟨e, he⟩
            · intro phases hmem
              simp only [List.mem_cons] at hmem
              rcases hmem with h | h
              · exact hss (congrArg Prod.fst h).symm
              · exact ihr.2 phases h

/-- Witness for C10: `windows/amd64` is rejected and triggers no
per-platform phase, under a parser recognizing the two literal platform
strings. -/
theorem nonlinux_platform_witness :
    (∃ e, (buildPlatformLoop
      (fun str =>
        if str = "linux/amd64" then some ⟨"linux", "amd64"⟩
        else if str = "windows/amd64" then some ⟨"windows", "amd64"⟩
        else none)
      (fun _ => .ok ())
      ["linux/amd64", "windows/amd64"]).1 = .error e) ∧
    ∀ phases, ("windows/amd64", phases) ∉ (buildPlatformLoop
      (fun str =>
        if str = "linux/amd64" then some ⟨"linux", "amd64"⟩
        else if str = "windows/amd64" then some ⟨"windows", "amd64"⟩
        else none)
      (fun _ => .ok ())
      ["linux/amd64", "windows/amd64"]).2 :=
  nonlinux_platform_rejected_before_work _ _ _ "windows/amd64"
    (by decide)
    (Or.inr ⟨⟨"windows", "amd64"⟩, by decide, by decide⟩)

/-- C7: under the slim pattern semantics a path is removed iff it
matches at least one delete pattern and no preserve pattern (`!` lines
preserve, empty and `#` lines are ignored); for the shipped `.slimify`
set, `/usr/share/doc/vim/copyright` matches the delete pattern
`/usr/share/doc/*` and the preserve pattern `/usr/share/doc/*/copyright`
and is therefore kept. -/
theorem slim_pattern_semantics :
    (∀ fileLines path,
       slimRemoves fileLines path = true ↔
         ((∃ pat ∈ (parseSlimPatterns fileLines).1, globMatch pat path = true) ∧
          ∀ pat ∈ (parseSlimPatterns fileLines).2, globMatch pat path = false)) ∧
    globMatch "/usr/share/doc/*" "/usr/share/doc/vim/copyright" = true ∧
    "/usr/share/doc/*" ∈ (parseSlimPatterns slimifyLines).1 ∧
    globMatch "/usr/share/doc/*/copyright" "/usr/share/doc/vim/copyright" = true ∧
    "/usr/share/doc/*/copyright" ∈ (parseSlimPatterns slimifyLines).2 ∧
    slimRemoves slimifyLines "/usr/share/doc/vim/copyright" = false := by
  refine ⟨?_, by decide, by decide, by decide, by decide, by decide⟩
  intro fileLines path
  simp [slimRemoves, List.any_eq_true, List.any_eq_false]

/-- Witness for C7: by the iff, a pure documentation file matching a
delete pattern and no preserve pattern is removed. -/
theorem slim_pattern_witness :
    slimRemoves slimifyLines "/usr/share/doc/vim/README.gz" = true :=
  (slim_pattern_semantics.1 slimifyLines "/usr/share/doc/vim/README.gz").mpr
    ⟨⟨"/usr/share/doc/*", by decide, by decide⟩, by decide⟩

/-- C1: every path in the downloader's accepted result list comes from a
`downloadPackage` that streamed a body whose digest equals the package's
`SHA256` field; a URL whose body fails verification never contributes a
path to the build inputs (main.go:566-592, 613-650). -/
theorem download_accepts_only_verified (hash : List Nat → String) (env : NetEnv)
    (dir : String) (pkgs : List Package) (paths : List String)
    (hok : (downloadSelectedPackages hash env dir pkgs).1 = .ok paths) :
    ∀ p ∈ paths, ∃ pkg ∈ pkgs, ∃ u ∈ pkg.urls, ∃ data,
      env.get u = .ok (.complete data) ∧ hash data = pkg.sha256 ∧
      (downloadPackage hash env dir u pkg.sha256).1 = .ok p := by
  intro p hp
  rcases downloadSelectedPackages_ok hash env dir pkgs paths hok with ⟨paths0, hdl, hsort⟩
  subst hsort
  have hp0 : p ∈ paths0 := (List.mem_insertionSort (· ≤ ·)).mp hp
  rcases downloadLoop_ok hash env dir pkgs paths0 hdl p hp0 with ⟨pkg, hpkg, u, hu, hdpu⟩
  rcases hdp : downloadPackage hash env dir u pkg.sha256 with ⟨res, files⟩
  rw [hdp] at hdpu
  simp only at hdpu
  subst hdpu
  rcases downloadPackage_ok hash env dir u pkg.sha256 p files hdp with
    ⟨urlPath, data, _, hget, hhash, _, _⟩
  exact ⟨pkg, hpkg, u, hu, data, hget, hhash, by rw [hdp]⟩

/-- Witness for C1: the single accepted path of a concrete run is backed
by a hash-verified body. -/
theorem download_accepts_only_verified_witness :
    ∃ pkg ∈ [pkg0], ∃ u ∈ pkg.urls, ∃ data,
      env0.get u = .ok (.complete data) ∧ hash0 data = pkg.sha256 ∧
      (downloadPackage hash0 env0 "/tmp/scratch" u pkg.sha256).1 =
        .ok "/tmp/scratch/a.deb" :=
  download_accepts_only_verified hash0 env0 "/tmp/scratch" [pkg0]
    ["/tmp/scratch/a.deb"] rfl "/tmp/scratch/a.deb" (by decide)

/-- C2: a package's download fails only when every one of its URLs
fails, in which case the aggregated error joins each URL's underlying
error in attempt order; a successful URL makes the loop succeed,
discarding the errors of earlier attempts (main.go:570-586). -/
theorem mirror_fallback_error_aggregation (hash : List Nat → String)
    (env : NetEnv) (dir sha : String) (urls : List String) :
    ((∀ u ∈ urls, ∃ e, (downloadPackage hash env dir u sha).1 = .error e) →
       (tryURLs hash env dir sha urls []).1 =
         .error (urls.map fun u => exceptErr (downloadPackage hash env dir u sha).1)) ∧
    (∀ es, (tryURLs hash env dir sha urls []).1 = .error es →
       ∀ u ∈ urls, ∃ e, (downloadPackage hash env dir u sha).1 = .error e) ∧
    (∀ pre u post p, urls = pre ++ u :: post →
       (∀ v ∈ pre, ∃ e, (downloadPackage hash env dir v sha).1 = .error e) →
       (downloadPackage hash env dir u sha).1 = .ok p →
       (tryURLs hash env dir sha urls []).1 = .ok p) := by
  refine ⟨?_, ?_, ?_⟩
  · intro hall
    simpa using tryURLs_all_fail hash env dir sha urls [] hall
  · intro es herr
    exact tryURLs_error_all_fail hash env dir sha urls [] es herr
  · intro pre u post p hsplit hpre hok
    subst hsplit
    exact tryURLs_success_discards hash env dir sha pre u post [] p hpre hok

/-- Witness for C2: with two dead mirrors the loop aggregates both
errors; with a dead mirror before a live one it succeeds. -/
theorem mirror_fallback_witness :
    (tryURLs hash0 env0 "/tmp/scratch" "good"
        ["http://dead1/a.deb", "http://dead2/a.deb"] []).1 =
      .error (["http://dead1/a.deb", "http://dead2/a.deb"].map fun u =>
        exceptErr (downloadPackage hash0 env0 "/tmp/scratch" u "good").1) ∧
    (tryURLs hash0 env0 "/tmp/scratch" "good"
        ["http://dead1/a.deb", "http://mirror/a.deb"] []).1 =
      .ok "/tmp/scratch/a.deb" := by
  constructor
  · refine (mirror_fallback_error_aggregation hash0 env0 "/tmp/scratch" "good"
      ["http://dead1/a.deb", "http://dead2/a.deb"]).1 ?_
    intro u hu
    rcases List.mem_cons.mp hu with rfl | hu
    · exact ⟨"failed to download package: connection refused", rfl⟩
    · rcases List.mem_singleton.mp hu with rfl
      exact ⟨"failed to download package: connection refused", rfl⟩
  · exact (mirror_fallback_error_aggregation hash0 env0 "/tmp/scratch" "good"
      ["http://dead1/a.deb", "http://mirror/a.deb"]).2.2
      ["http://dead1/a.deb"] "http://mirror/a.deb" [] "/tmp/scratch/a.deb" rfl
      (by intro v hv
          rcases List.mem_singleton.mp hv with rfl
          exact ⟨"failed to download package: connection refused", rfl⟩)
      rfl

/-- C4: whatever the download outcomes (hash mismatches, read errors,
aborts), after the build scope's deferred `os.RemoveAll(tempDir)` runs no
scratch file remains, and every accepted build input lies under the
run's own fresh scratch directory — so a partial file from one run
cannot be a build input of a later run (main.go:218-225, 613-650). -/
theorem partial_files_discarded_on_scope_exit (hash : List Nat → String)
    (env : NetEnv) (tempDir : String) (pkgs : List Package) :
    (buildScratchRun hash env tempDir pkgs).2 = [] ∧
    (∀ paths p, (buildScratchRun hash env tempDir pkgs).1 = .ok paths → p ∈ paths →
       (tempDir ++ "/").data.isPrefixOf p.data = true) := by
  constructor
  · show removeAll tempDir (downloadSelectedPackages hash env tempDir pkgs).2 = []
    unfold removeAll
    rw [List.filter_eq_nil_iff]
    intro pf hpf
    have hund : (tempDir ++ "/").data.isPrefixOf pf.1.data = true := by
      have hsame : (downloadSelectedPackages hash env tempDir pkgs).2 =
          (downloadLoop hash env tempDir pkgs).2 := by
        unfold downloadSelectedPackages
        rcases hdl : downloadLoop hash env tempDir pkgs with ⟨res, files⟩
        cases res <;> simp
      rw [hsame] at hpf
      exact downloadLoop_files_under_dir hash env tempDir pkgs pf hpf
    show ¬(!(tempDir ++ "/").data.isPrefixOf pf.1.data) = true
    rw [hund]
    simp
  · intro paths p hok hp
    have hok' : (downloadSelectedPackages hash env tempDir pkgs).1 = .ok paths := hok
    rcases downloadSelectedPackages_ok hash env tempDir pkgs paths hok' with
      ⟨paths0, hdl, hsort⟩
    subst hsort
    have hp0 : p ∈ paths0 := (List.mem_insertionSort (· ≤ ·)).mp hp
    rcases downloadLoop_ok hash env tempDir pkgs paths0 hdl p hp0 with
      ⟨pkg, _, u, _, hdpu⟩
    rcases hdp : downloadPackage hash env tempDir u pkg.sha256 with ⟨res, files⟩
    rw [hdp] at hdpu
    simp only at hdpu
    subst hdpu
    rcases downloadPackage_ok hash env tempDir u pkg.sha256 p files hdp with
      ⟨urlPath, data, _, _, _, hjoin, _⟩
    subst hjoin
    unfold joinPath
    rw [String.data_append]
    exact isPrefixOf_append_self _ _

/-- Witness for C4: a run whose only URL serves a hash-mismatching body
leaves an empty scratch directory behind. -/
theorem partial_files_discarded_witness :
    (buildScratchRun hash0 envBad "/tmp/scratch" [pkg0]).2 = [] ∧
    (buildScratchRun hash0 env0 "/tmp/scratch" [pkg0]).2 = [] :=
  ⟨(partial_files_discarded_on_scope_exit hash0 envBad "/tmp/scratch" [pkg0]).1,
   (partial_files_discarded_on_scope_exit hash0 env0 "/tmp/scratch" [pkg0]).1⟩

/-- C6: a successful `downloadSelectedPackages` returns a
lexicographically sorted list (main.go:608) of paths that are all
absolute whenever the scratch directory is (as the `os.MkdirTemp`
directory of main.go:219 is). -/
theorem download_paths_sorted_and_absolute (hash : List Nat → String)
    (env : NetEnv) (dir : String) (pkgs : List Package) (paths : List String)
    (habs : isAbsolutePath dir = true)
    (hok : (downloadSelectedPackages hash env dir pkgs).1 = .ok paths) :
    List.Sorted (· ≤ ·) paths ∧ ∀ p ∈ paths, isAbsolutePath p = true := by
  rcases downloadSelectedPackages_ok hash env dir pkgs paths hok with
    ⟨paths0, hdl, hsort⟩
  subst hsort
  constructor
  · exact List.sorted_insertionSort (· ≤ ·) paths0
  · intro p hp
    have hp0 : p ∈ paths0 := (List.mem_insertionSort (· ≤ ·)).mp hp
    rcases downloadLoop_ok hash env dir pkgs paths0 hdl p hp0 with
      ⟨pkg, _, u, _, hdpu⟩
    rcases hdp : downloadPackage hash env dir u pkg.sha256 with ⟨res, files⟩
    rw [hdp] at hdpu
    simp only at hdpu
    subst hdpu
    rcases downloadPackage_ok hash env dir u pkg.sha256 p files hdp with
      ⟨urlPath, data, _, _, _, hjoin, _⟩
    subst hjoin
    exact joinPath_absolute dir (baseName urlPath) habs

/-- Witness for C6 at a concrete run with one package. -/
theorem download_paths_sorted_witness :
    List.Sorted (· ≤ ·) ["/tmp/scratch/a.deb"] ∧
    ∀ p ∈ ["/tmp/scratch/a.deb"], isAbsolutePath p = true :=
  download_paths_sorted_and_absolute hash0 env0 "/tmp/scratch" [pkg0]
    ["/tmp/scratch/a.deb"] (by decide) rfl

end Immutos
